import Mathlib

/-!
Verification of the cyclic barrier repository.

Embedded code:
* `src/2/barrier-2.go` (second declaration set, lines 340-577): the main
  variant with `Wait`, `Break`, `breakRound`, `resetRound`, `IsBroken` over a
  `round{isBroken, count, success, broken}` record.  Channels are modelled by
  their observable `closed` state; `close(ch)` becomes setting the flag.
* `src/barrier.go` (first declaration set, lines 1-223): the variant whose
  round action returns an error (`Await`, `breakBarrier`, `reset`).

Two layers are developed:
* sequential call semantics: each exported call as a pure state transformer,
  with the `select` resolution passed in as an explicit `Wake` choice that must
  be enabled (its channel closed / context fired);
* a small-step thread-pool semantics (`stepFn`) for the interleaving claims,
  where each atomic lock-protected section of the source is one step.
-/

set_option autoImplicit false

/-- Round state, from `round` in src/2/barrier-2.go (lines 397-411).
`successClosed` / `brokenClosed` model whether `close` was called on the
corresponding channel. -/
structure Rnd where
  isBroken : Bool
  count : Nat
  successClosed : Bool
  brokenClosed : Bool
deriving DecidableEq, Repr

/-- Function `newRound` (src/2/barrier-2.go lines 413-418): fresh round, open channels. -/
def newRound : Rnd := ⟨false, 0, false, false⟩

/-- Method `round.meetNewComer` (lines 420-428): increment the arrival count and
return the captured count (the channel captures are the round identity,
which the callers keep separately). -/
def Rnd.meetNewComer (r : Rnd) : Nat × Rnd :=
  (r.count + 1, { r with count := r.count + 1 })

/-- Effect of `barrier.breakRound` (lines 518-526) on the current round:
if not yet broken, mark broken and close the broken channel. -/
def Rnd.breakRound (r : Rnd) : Rnd :=
  if r.isBroken then r else { r with isBroken := true, brokenClosed := true }

/-- The channel-closing half of `barrier.resetRound` (lines 541-552): the
retired round's success channel is closed iff the round is not broken. -/
def Rnd.closeOnReset (r : Rnd) : Rnd :=
  if r.isBroken then r else { r with successClosed := true }

/-- Sequential view of `barrier` (lines 388-395).  The action is a Go closure
whose body is outside the model; we record only whether one is set.
`retiredLog` records retired rounds so their final channel state stays
observable (in Go, waiters keep references to retired rounds). -/
structure BarrierS where
  participants : Nat
  hasAction : Bool
  cur : Rnd
  retiredLog : List Rnd
deriving DecidableEq, Repr

/-- Method `barrier.resetRound` (lines 541-552): close success if not broken, then
install a fresh round. -/
def BarrierS.resetRound (b : BarrierS) : BarrierS :=
  { b with cur := newRound, retiredLog := b.retiredLog ++ [b.cur.closeOnReset] }

/-- Method `barrier.breakRound` (lines 518-526) at the barrier level. -/
def BarrierS.breakRound (b : BarrierS) : BarrierS :=
  { b with cur := b.cur.breakRound }

/-- Method `barrier.IsBroken` (lines 573-577). -/
def BarrierS.IsBroken (b : BarrierS) : Bool := b.cur.isBroken

/-- A caller's context: whether `ctx.Done()` has fired and the cause
(`ctx.Err()`), modelled as an opaque token. -/
structure Ctx where
  fired : Bool
  cause : Nat
deriving DecidableEq, Repr

/-- Which arm of the three-way `select` in `Wait` resolves. -/
inductive Wake where
  | success
  | broken
  | cancel
deriving DecidableEq, Repr

/-- An arm of the `select` can only resolve if its channel is ready:
`success`/`broken` require the channel closed, `cancel` requires the
context to have fired. -/
def wakeEnabled (r : Rnd) (ctx : Ctx) : Wake → Bool
  | .success => r.successClosed
  | .broken => r.brokenClosed
  | .cancel => ctx.fired

/-- Result of a `Wait` call: `ok` is a nil error, `errBroken` is `ErrBroken`,
`errWrapped c` is `fmt.Errorf("barrier is broken: %w", ctx.Err())` wrapping
cause `c`, `panicked` marks the fatal contract-violation branch. -/
inductive WRes where
  | ok
  | errBroken
  | errWrapped (cause : Nat)
  | panicked
deriving DecidableEq, Repr

/-- Output of a `Wait` call: resulting barrier state, returned error, and
whether the round action was invoked during the call. -/
structure WaitOut where
  b : BarrierS
  res : WRes
  ranAction : Bool
deriving DecidableEq, Repr

/-- Method `barrier.Wait` (src/2/barrier-2.go lines 453-494), sequential semantics
(no interference between the call's atomic sections).  The non-last branch
suspends; `w` is the `select` arm that eventually resolves. -/
def BarrierS.Wait (b : BarrierS) (ctx : Ctx) (w : Wake) : WaitOut :=
  let c := b.cur.meetNewComer.1
  let b1 : BarrierS := { b with cur := b.cur.meetNewComer.2 }
  if c > b.participants then ⟨b1, .panicked, false⟩
  else if c < b.participants then
    match w with
    | .success => ⟨b1, .ok, false⟩
    | .broken => ⟨b1, .errBroken, false⟩
    | .cancel => ⟨b1.breakRound, .errWrapped ctx.cause, false⟩
  else
    ⟨b1.resetRound, if b1.IsBroken then .errBroken else .ok, b1.hasAction⟩

/-- Output of a `Break` call (`Break` returns nothing; we record the state,
whether the action ran, and whether the call hit the panic branch). -/
structure BreakOut where
  b : BarrierS
  ranAction : Bool
  panicked : Bool
deriving DecidableEq, Repr

/-- Method `barrier.Break` (src/2/barrier-2.go lines 496-516): register the arrival,
panic on overflow, unconditionally break the round, and if last also run the
action and reset. -/
def BarrierS.Break (b : BarrierS) : BreakOut :=
  let c := b.cur.meetNewComer.1
  let b1 : BarrierS := { b with cur := b.cur.meetNewComer.2 }
  if c > b.participants then ⟨b1, false, true⟩
  else
    let b2 := b1.breakRound
    if c = b.participants then ⟨b2.resetRound, b2.hasAction, false⟩
    else ⟨b2, false, false⟩

/-- The registration step of a `Wait` call alone (the `meetNewComer` critical
section), used to model a suspended non-last waiter's effect on the state. -/
def BarrierS.arrive (b : BarrierS) : BarrierS :=
  { b with cur := b.cur.meetNewComer.2 }

/-- One full successful round, sequentially: `participants - 1` waiters
register and suspend, then the last arriver's `Wait` runs the action and
retires the round (the suspended waiters later wake on the closed success
channel). -/
def BarrierS.roundTrip (b : BarrierS) : BarrierS :=
  ((BarrierS.arrive)^[b.participants - 1] b).Wait ⟨false, 0⟩ Wake.success |>.b

/-! Section: variant with a fallible action (src/barrier.go, first declaration set)

`round{count, waitCh, brokeCh, isBroken}` (lines 61-67), `barrier` (76-83),
`Await` (104-167), `breakBarrier` (169-181), `reset` (192-206). -/

/-- Structure `round` of src/barrier.go (lines 61-67). -/
structure Rnd1 where
  count : Nat
  isBroken : Bool
  waitChClosed : Bool
  brokeChClosed : Bool
deriving DecidableEq, Repr

/-- Function `newRound` of src/barrier.go (lines 69-74). -/
def newRound1 : Rnd1 := ⟨0, false, false, false⟩

/-- Structure `barrier` of src/barrier.go (lines 76-83).  The action is a Go closure
set at construction; we record it as `none` (nil) or `some e`, where `e` is
the error it returns when invoked (`none` for a nil error).  `log` records
retired rounds so their final channel state stays observable. -/
structure Bar1 where
  parties : Nat
  action : Option (Option Nat)
  round : Rnd1
  log : List Rnd1
deriving DecidableEq, Repr

/-- Method `barrier.breakBarrier` (src/barrier.go lines 169-181): if the round is
not broken, mark it broken and close its broken-broadcast channel.  It does
not install a new round. -/
def Bar1.breakBarrier (b : Bar1) : Bar1 :=
  if b.round.isBroken then b
  else { b with round := { b.round with isBroken := true, brokeChClosed := true } }

/-- Method `barrier.reset` (src/barrier.go lines 192-206): when `safe`, close the
wait channel; otherwise break the round if anyone arrived; then install a
fresh round. -/
def Bar1.reset (b : Bar1) (safe : Bool) : Bar1 :=
  let r :=
    if safe then { b.round with waitChClosed := true }
    else if b.round.count > 0 then
      (if b.round.isBroken then b.round
       else { b.round with isBroken := true, brokeChClosed := true })
    else b.round
  { b with round := newRound1, log := b.log ++ [r] }

/-- Result of an `Await` call in src/barrier.go: nil, `ErrBrokenBarrier`,
`ctx.Err()` (carrying the cancellation cause), the action's own error, or
the fatal contract-violation branch. -/
inductive ARes where
  | ok
  | errBrokenBarrier
  | ctxErr (cause : Nat)
  | actionErr (e : Nat)
  | panicked
deriving DecidableEq, Repr

/-- What each arm of `Await`'s `select` (src/barrier.go lines 142-150)
returns: `waitCh` gives nil, `brokeCh` gives `ErrBrokenBarrier`, `ctx.Done()`
gives `ctx.Err()`. -/
def awaitSelect (cause : Nat) : Wake → ARes
  | .success => .ok
  | .broken => .errBrokenBarrier
  | .cancel => .ctxErr cause

/-- Output of an `Await` call. -/
structure AOut where
  b : Bar1
  res : ARes
  ranAction : Bool
deriving DecidableEq, Repr

/-- Method `barrier.Await` (src/barrier.go lines 104-167), sequential semantics.
Entry: early return on a fired context (without registering), then the
broken check; then registration; panic on overflow; non-last waiters
suspend on the three-way `select` (arm `w`, which also invokes
`breakBarrier` when it is the cancellation arm); the last arriver runs the
action, breaking the round on an action error and resetting otherwise. -/
def Bar1.Await (b : Bar1) (ctx : Ctx) (w : Wake) : AOut :=
  if ctx.fired then ⟨b, .ctxErr ctx.cause, false⟩
  else if b.round.isBroken then ⟨b, .errBrokenBarrier, false⟩
  else
    let c := b.round.count + 1
    let b1 : Bar1 := { b with round := { b.round with count := c } }
    if c > b.parties then ⟨b1, .panicked, false⟩
    else if c < b.parties then
      ⟨if w = Wake.cancel then b1.breakBarrier else b1, awaitSelect ctx.cause w, false⟩
    else
      match b1.action with
      | none => ⟨b1.reset true, .ok, false⟩
      | some none => ⟨b1.reset true, .ok, true⟩
      | some (some e) => ⟨b1.breakBarrier, .actionErr e, true⟩

/-! Section: small-step thread-pool semantics for src/2/barrier-2.go

Each step is one lock-protected atomic section of the source (or a wake-up
of a suspended waiter).  Threads are identified by natural numbers; a round
is identified by its position in the retirement order (`retired.length` is
the id of the current round), which models the channel references captured
by `meetNewComer`. -/

/-- Control state of one goroutine running `Wait` or `Break`.
`rid` is the id of the round the thread registered in; `cnt` is the count
its `meetNewComer` returned.
* `waiting`: non-last `Wait`, suspended in the `select`;
* `breakMid`: `Break` between `meetNewComer` and `breakRound`;
* `lastW`: last-arriver `Wait` before the `IsBroken` read;
* `lastW2`: last-arriver `Wait` after the `IsBroken` read (`errPending` is
  the value read), action done, before `resetRound`;
* `lastB`: last-arriver `Break` after `breakRound`, action done, before
  `resetRound`. -/
inductive Phase where
  | readyWait
  | readyBreak
  | waiting (rid : Nat)
  | breakMid (rid : Nat) (cnt : Nat)
  | lastW (rid : Nat) (cnt : Nat)
  | lastW2 (rid : Nat) (cnt : Nat) (errPending : Bool)
  | lastB (rid : Nat) (cnt : Nat)
  | doneOk
  | doneBroken
  | doneCancelled
  | doneBreakRet
  | panicked
deriving DecidableEq, Repr

/-- Global configuration: participant count, retired rounds in retirement
order, the current round, and every thread's control state. -/
structure Cfg where
  n : Nat
  retired : List Rnd
  cur : Rnd
  threads : Nat → Phase

/-- The round a captured channel reference with id `rid` points to:
a retired round keeps its final state; id `retired.length` is the current
round. -/
def Cfg.roundAt (cfg : Cfg) (rid : Nat) : Rnd := cfg.retired.getD rid cfg.cur

def Cfg.setPhase (cfg : Cfg) (i : Nat) (ph : Phase) : Cfg :=
  { cfg with threads := Function.update cfg.threads i ph }

def Cfg.withCur (cfg : Cfg) (r : Rnd) : Cfg := { cfg with cur := r }

/-- Effect of `resetRound` on the global state: close the success channel if the current
round is not broken, retire it, install a fresh round. -/
def Cfg.retire (cfg : Cfg) : Cfg :=
  { cfg with retired := cfg.retired ++ [cfg.cur.closeOnReset], cur := newRound }

/-- Events: which thread performs which atomic section. -/
inductive Ev where
  | startWait (i : Nat)
  | startBreak (i : Nat)
  | brkStep (i : Nat)
  | wakeSuccess (i : Nat)
  | wakeBroken (i : Nat)
  | wakeCancel (i : Nat)
  | checkBroken (i : Nat)
  | resetStep (i : Nat)
deriving DecidableEq, Repr

/-- One atomic step of the system; `none` when the event is not enabled.
* `startWait`: `Wait`'s `meetNewComer` section plus the thread-local branch
  on the captured count (panic / suspend / last-arriver path);
* `startBreak`: `Break`'s `meetNewComer` section plus its panic check;
* `brkStep`: `Break`'s `breakRound` call, then the thread-local `count ==
  participants` branch;
* `wakeSuccess` / `wakeBroken`: a suspended waiter's `select` resolving on
  its captured success / broken channel (only if that channel is closed);
* `wakeCancel`: the `select` resolving on `ctx.Done()` (contexts are
  environment-controlled, so this is always possible), which calls
  `breakRound` on the current round;
* `checkBroken`: the last arriver's `b.IsBroken()` read (the action call
  that follows touches no barrier state);
* `resetStep`: the last arriver's `resetRound`. -/
def stepFn (cfg : Cfg) : Ev → Option Cfg
  | .startWait i =>
    match cfg.threads i with
    | .readyWait =>
      some ((cfg.withCur cfg.cur.meetNewComer.2).setPhase i
        (if cfg.cur.meetNewComer.1 > cfg.n then .panicked
         else if cfg.cur.meetNewComer.1 < cfg.n then .waiting cfg.retired.length
         else .lastW cfg.retired.length cfg.cur.meetNewComer.1))
    | _ => none
  | .startBreak i =>
    match cfg.threads i with
    | .readyBreak =>
      some ((cfg.withCur cfg.cur.meetNewComer.2).setPhase i
        (if cfg.cur.meetNewComer.1 > cfg.n then .panicked
         else .breakMid cfg.retired.length cfg.cur.meetNewComer.1))
    | _ => none
  | .brkStep i =>
    match cfg.threads i with
    | .breakMid rid c =>
      some ((cfg.withCur cfg.cur.breakRound).setPhase i
        (if c = cfg.n then .lastB rid c else .doneBreakRet))
    | _ => none
  | .wakeSuccess i =>
    match cfg.threads i with
    | .waiting rid =>
      if (cfg.roundAt rid).successClosed then some (cfg.setPhase i .doneOk) else none
    | _ => none
  | .wakeBroken i =>
    match cfg.threads i with
    | .waiting rid =>
      if (cfg.roundAt rid).brokenClosed then some (cfg.setPhase i .doneBroken) else none
    | _ => none
  | .wakeCancel i =>
    match cfg.threads i with
    | .waiting _ =>
      some ((cfg.withCur cfg.cur.breakRound).setPhase i .doneCancelled)
    | _ => none
  | .checkBroken i =>
    match cfg.threads i with
    | .lastW rid c => some (cfg.setPhase i (.lastW2 rid c cfg.cur.isBroken))
    | _ => none
  | .resetStep i =>
    match cfg.threads i with
    | .lastW2 _ _ e => some (cfg.retire.setPhase i (if e then .doneBroken else .doneOk))
    | .lastB _ _ => some (cfg.retire.setPhase i .doneBreakRet)
    | _ => none

/-- Initial configurations: what `New(n)` (lines 430-440) produces, for a
positive participant count, with every thread about to call `Wait` or
`Break`. -/
structure Init (cfg : Cfg) : Prop where
  npos : 1 ≤ cfg.n
  ret : cfg.retired = []
  cur : cfg.cur = newRound
  ths : ∀ i, cfg.threads i = Phase.readyWait ∨ cfg.threads i = Phase.readyBreak

def StepAny (a b : Cfg) : Prop := ∃ e, stepFn a e = some b

/-- Configurations reachable from some initial configuration. -/
def Reachable (cfg : Cfg) : Prop :=
  ∃ c0, Init c0 ∧ Relation.ReflTransGen StepAny c0 cfg

/-- The `(rid, cnt)` pair held by a thread that has registered an arrival
and still has barrier work to do. -/
def Phase.holdsPair : Phase → Option (Nat × Nat)
  | .breakMid rid c => some (rid, c)
  | .lastW rid c => some (rid, c)
  | .lastW2 rid c _ => some (rid, c)
  | .lastB rid c => some (rid, c)
  | _ => none

/-- The `(rid, cnt)` pair of a thread on a last-arriver path (about to, or
in the middle of, running the retirement sequence). -/
def Phase.lastPair : Phase → Option (Nat × Nat)
  | .lastW rid c => some (rid, c)
  | .lastW2 rid c _ => some (rid, c)
  | .lastB rid c => some (rid, c)
  | _ => none

/-- The inductive invariant of the thread-pool semantics. -/
structure BarInv (cfg : Cfg) : Prop where
  curSucc : cfg.cur.successClosed = false
  curBrk : cfg.cur.brokenClosed = cfg.cur.isBroken
  ret : ∀ r ∈ cfg.retired,
    r.successClosed = !r.isBroken ∧ r.brokenClosed = r.isBroken ∧ cfg.n ≤ r.count
  hRid : ∀ i rid c, (cfg.threads i).holdsPair = some (rid, c) →
    rid ≤ cfg.retired.length
  hCnt : ∀ i c, (cfg.threads i).holdsPair = some (cfg.retired.length, c) →
    c ≤ cfg.cur.count
  hTop : ∀ i rid, (cfg.threads i).holdsPair = some (rid, cfg.n) →
    rid = cfg.retired.length
  hLast : ∀ i rid c, (cfg.threads i).lastPair = some (rid, c) → c = cfg.n
  hDup : ∀ i j p, i ≠ j → (cfg.threads i).holdsPair = some p →
    (cfg.threads j).holdsPair = some p → False

/-! Section: concrete configurations used to exercise the semantics

A two-participant barrier run: thread 0 arrives and suspends, thread 1
arrives last, reads the broken flag, retires the round, then thread 0 wakes
on the closed success channel. -/

def wcfg0 : Cfg := ⟨2, [], newRound, fun _ => Phase.readyWait⟩

def wcfg1 : Cfg := (stepFn wcfg0 (Ev.startWait 0)).getD wcfg0

def wcfg2 : Cfg := (stepFn wcfg1 (Ev.startWait 1)).getD wcfg1

def wcfg3 : Cfg := (stepFn wcfg2 (Ev.checkBroken 1)).getD wcfg2

def wcfg4 : Cfg := (stepFn wcfg3 (Ev.resetStep 1)).getD wcfg3

def wcfg5 : Cfg := (stepFn wcfg4 (Ev.wakeSuccess 0)).getD wcfg4

/-! Section: helper lemmas -/

@[simp] theorem Rnd.breakRound_isBroken (r : Rnd) : (r.breakRound).isBroken = true := by
  unfold Rnd.breakRound; split <;> simp_all

@[simp] theorem Rnd.breakRound_count (r : Rnd) : (r.breakRound).count = r.count := by
  unfold Rnd.breakRound; split <;> rfl

@[simp] theorem Rnd.breakRound_successClosed (r : Rnd) :
    (r.breakRound).successClosed = r.successClosed := by
  unfold Rnd.breakRound; split <;> rfl

theorem Rnd.breakRound_brokenClosed (r : Rnd) (h : r.brokenClosed = r.isBroken) :
    (r.breakRound).brokenClosed = true := by
  unfold Rnd.breakRound; split <;> simp_all

theorem Rnd.closeOnReset_of_broken (r : Rnd) (h : r.isBroken = true) :
    r.closeOnReset = r := by
  unfold Rnd.closeOnReset; simp [h]

@[simp] theorem Rnd.closeOnReset_count (r : Rnd) : (r.closeOnReset).count = r.count := by
  unfold Rnd.closeOnReset; split <;> rfl

@[simp] theorem Rnd.closeOnReset_isBroken (r : Rnd) :
    (r.closeOnReset).isBroken = r.isBroken := by
  unfold Rnd.closeOnReset; split <;> rfl

/-! Section: claim theorems, sequential layer -/

/-- C6: the break-round procedure is idempotent: a second invocation on an
already broken round changes nothing (same observable effect), and the
broken broadcast is fired only on the false-to-true transition of the
broken flag. -/
theorem breakRound_idempotent (r : Rnd) :
    (r.breakRound).breakRound = r.breakRound ∧
    (r.isBroken = true → r.breakRound = r) ∧
    (r.isBroken = false →
      (r.breakRound).isBroken = true ∧ (r.breakRound).brokenClosed = true ∧
      (r.breakRound).count = r.count ∧
      (r.breakRound).successClosed = r.successClosed) := by
  unfold Rnd.breakRound
  rcases r with ⟨ib, c, s, bc⟩
  cases ib <;> simp

theorem breakRound_idempotent_witness :
    (Rnd.breakRound ⟨true, 3, false, true⟩ = ⟨true, 3, false, true⟩) ∧
    ((Rnd.breakRound newRound).isBroken = true) := by
  exact ⟨(breakRound_idempotent ⟨true, 3, false, true⟩).2.1 rfl,
    ((breakRound_idempotent newRound).2.2 rfl).1⟩

/-- C7: when a `Wait` or `Break` arrival pushes the round's count beyond the
participant count, the call takes the fatal panic branch rather than
returning a recoverable error; when at most `participants` arrivals register
in the round, the panic branch is not taken. -/
theorem overflow_panics (b : BarrierS) (ctx : Ctx) (w : Wake) :
    (b.participants < b.cur.count + 1 →
      (b.Wait ctx w).res = WRes.panicked ∧ (b.Break).panicked = true) ∧
    (b.cur.count + 1 ≤ b.participants →
      (b.Wait ctx w).res ≠ WRes.panicked ∧ (b.Break).panicked = false) := by
  constructor
  · intro h
    have hgt : b.cur.meetNewComer.1 > b.participants := by
      simp [Rnd.meetNewComer]; omega
    constructor
    · simp [BarrierS.Wait, hgt]
    · simp [BarrierS.Break, hgt]
  · intro h
    have hgt : ¬ b.cur.meetNewComer.1 > b.participants := by
      simp [Rnd.meetNewComer]; omega
    constructor
    · by_cases hlt : b.cur.meetNewComer.1 < b.participants
      · cases w <;> simp [BarrierS.Wait, hgt, hlt]
      · simp only [BarrierS.Wait, if_neg hgt, if_neg hlt]
        split <;> simp
    · simp only [BarrierS.Break, if_neg hgt]
      split <;> simp

theorem overflow_panics_witness :
    ((((⟨1, false, ⟨false, 1, false, false⟩, []⟩ : BarrierS)).Wait ⟨false, 0⟩
        Wake.success).res = WRes.panicked) ∧
    (((⟨2, false, newRound, []⟩ : BarrierS).Break).panicked = false) := by
  exact ⟨((overflow_panics ⟨1, false, ⟨false, 1, false, false⟩, []⟩ ⟨false, 0⟩
      Wake.success).1 (by decide)).1,
    ((overflow_panics ⟨2, false, newRound, []⟩ ⟨false, 0⟩ Wake.success).2
      (by decide)).2⟩

/-- C4: when the last arrival of a round lands via `Wait` and the round is
already marked broken, the call still runs the action (if one is set),
still performs retirement (fresh round installed, the broken round retired
unchanged, so no release broadcast), and returns the broken-by-other
failure rather than success. -/
theorem lastWait_on_broken_round (b : BarrierS) (ctx : Ctx) (w : Wake)
    (hc : b.cur.count + 1 = b.participants)
    (hbr : b.cur.isBroken = true) :
    (b.Wait ctx w).res = WRes.errBroken ∧
    (b.Wait ctx w).res ≠ WRes.ok ∧
    (b.Wait ctx w).ranAction = b.hasAction ∧
    (b.Wait ctx w).b.cur = newRound ∧
    (b.Wait ctx w).b.retiredLog = b.retiredLog ++ [b.cur.meetNewComer.2] := by
  have hgt : ¬ b.cur.meetNewComer.1 > b.participants := by
    simp [Rnd.meetNewComer]; omega
  have hlt : ¬ b.cur.meetNewComer.1 < b.participants := by
    simp [Rnd.meetNewComer]; omega
  have hbr2 : (b.cur.meetNewComer.2).isBroken = true := by
    simp [Rnd.meetNewComer, hbr]
  simp [BarrierS.Wait, hgt, hlt, BarrierS.IsBroken, BarrierS.resetRound,
    Rnd.closeOnReset_of_broken _ hbr2, hbr2]

theorem lastWait_on_broken_round_witness :
    (((⟨2, true, ⟨true, 1, false, true⟩, []⟩ : BarrierS).Wait ⟨false, 0⟩
        Wake.success).res = WRes.errBroken) ∧
    (((⟨2, true, ⟨true, 1, false, true⟩, []⟩ : BarrierS).Wait ⟨false, 0⟩
        Wake.success).b.cur = newRound) := by
  exact ⟨(lastWait_on_broken_round ⟨2, true, ⟨true, 1, false, true⟩, []⟩
      ⟨false, 0⟩ Wake.success (by decide) (by decide)).1,
    (lastWait_on_broken_round ⟨2, true, ⟨true, 1, false, true⟩, []⟩
      ⟨false, 0⟩ Wake.success (by decide) (by decide)).2.2.2.1⟩

/-- C5: a non-last waiter whose `select` resolves on its fired cancellation
invokes the break-round procedure (the round ends up broken with the broken
broadcast fired for the other waiters) and returns the failure wrapping the
cancellation cause, not the plain broken-by-other error.  The hypothesis
`hbe` is the channel discipline (broken channel closed iff flag set), which
holds in every reachable state (`reachable_invariants`). -/
theorem cancelled_waiter_breaks_round (b : BarrierS) (ctx : Ctx)
    (hc : b.cur.count + 1 < b.participants)
    (hf : ctx.fired = true)
    (hbe : b.cur.brokenClosed = b.cur.isBroken) :
    wakeEnabled b.cur.meetNewComer.2 ctx Wake.cancel = true ∧
    (b.Wait ctx Wake.cancel).res = WRes.errWrapped ctx.cause ∧
    (b.Wait ctx Wake.cancel).res ≠ WRes.errBroken ∧
    (b.Wait ctx Wake.cancel).b.cur.isBroken = true ∧
    (b.Wait ctx Wake.cancel).b.cur.brokenClosed = true ∧
    (b.Wait ctx Wake.cancel).b.cur.count = b.cur.count + 1 := by
  obtain ⟨p, hact, ⟨ib, cnt, sc, bc⟩, log⟩ := b
  simp only at hc hbe ⊢
  have h1 : ¬ p < cnt + 1 := by omega
  subst hbe
  cases bc <;>
    simp [BarrierS.Wait, Rnd.meetNewComer, BarrierS.breakRound, Rnd.breakRound,
      wakeEnabled, hf, hc, h1]

theorem cancelled_waiter_breaks_round_witness :
    (((⟨3, false, newRound, []⟩ : BarrierS).Wait ⟨true, 5⟩ Wake.cancel).res
      = WRes.errWrapped 5) ∧
    (((⟨3, false, newRound, []⟩ : BarrierS).Wait ⟨true, 5⟩ Wake.cancel).b.cur.isBroken
      = true) := by
  exact ⟨(cancelled_waiter_breaks_round ⟨3, false, newRound, []⟩ ⟨true, 5⟩
      (by decide) (by decide) (by decide)).2.1,
    (cancelled_waiter_breaks_round ⟨3, false, newRound, []⟩ ⟨true, 5⟩
      (by decide) (by decide) (by decide)).2.2.2.1⟩

/-- C3: `Break` registers an arrival exactly as `Wait` does (the same
`meetNewComer` increment of the current round's count), never suspends (it
is a total function with no `select` resolution), unconditionally marks the
round broken, and when its arrival is the last one it additionally runs the
action (if set) and retires the round by installing a fresh one — even
though the round is broken. -/
theorem break_call_spec (b : BarrierS) (hc : b.cur.count + 1 ≤ b.participants) :
    (b.Break).panicked = false ∧
    (b.cur.count + 1 < b.participants →
      (b.Break).b.cur.count = b.cur.count + 1 ∧
      (b.Break).b.cur.isBroken = true ∧
      (b.Break).ranAction = false ∧
      (b.Break).b.retiredLog = b.retiredLog) ∧
    (b.cur.count + 1 = b.participants →
      (b.Break).ranAction = b.hasAction ∧
      (b.Break).b.cur = newRound ∧
      (b.Break).b.retiredLog
        = b.retiredLog ++ [(b.cur.meetNewComer.2).breakRound] ∧
      ((b.cur.meetNewComer.2).breakRound).isBroken = true ∧
      ((b.cur.meetNewComer.2).breakRound).count = b.cur.count + 1) := by
  obtain ⟨p, hact, ⟨ib, cnt, sc, bc⟩, log⟩ := b
  simp only at hc ⊢
  have h1 : ¬ p < cnt + 1 := by omega
  refine ⟨?_, fun hlt => ?_, fun he => ?_⟩
  · by_cases he : cnt + 1 = p <;> cases ib <;>
      simp [BarrierS.Break, Rnd.meetNewComer, BarrierS.breakRound, Rnd.breakRound,
        h1, he]
  · have hne : ¬ (cnt + 1 = p) := by omega
    cases ib <;>
      simp [BarrierS.Break, Rnd.meetNewComer, BarrierS.breakRound, Rnd.breakRound,
        h1, hne]
  · cases ib <;>
      simp [BarrierS.Break, Rnd.meetNewComer, BarrierS.breakRound, Rnd.breakRound,
        BarrierS.resetRound, Rnd.closeOnReset, h1, he, newRound]

theorem break_call_spec_witness :
    (((⟨2, true, ⟨false, 1, false, false⟩, []⟩ : BarrierS).Break).ranAction = true) ∧
    (((⟨2, true, ⟨false, 1, false, false⟩, []⟩ : BarrierS).Break).b.cur = newRound) := by
  exact ⟨((break_call_spec ⟨2, true, ⟨false, 1, false, false⟩, []⟩ (by decide)).2.2
      (by decide)).1,
    ((break_call_spec ⟨2, true, ⟨false, 1, false, false⟩, []⟩ (by decide)).2.2
      (by decide)).2.1⟩

/-- C10 (counterexample): a `Wait` call whose context has already fired at
entry, made with fewer than `n - 1` arrivals registered, can still return
the plain broken-by-other error instead of the failure wrapping the
cancellation cause: if the current round is already broken, the broken
channel is closed, so the `select` may resolve on it.  Concretely: `n = 3`,
zero arrivals, round already broken, fired context with cause `7`. -/
theorem wait_precancelled_counterexample :
    (wakeEnabled ((⟨3, false, ⟨true, 0, false, true⟩, []⟩ : BarrierS)).cur.meetNewComer.2
      ⟨true, 7⟩ Wake.broken = true) ∧
    ((((⟨3, false, ⟨true, 0, false, true⟩, []⟩ : BarrierS)).Wait ⟨true, 7⟩
        Wake.broken).res = WRes.errBroken) ∧
    ((((⟨3, false, ⟨true, 0, false, true⟩, []⟩ : BarrierS)).Wait ⟨true, 7⟩
        Wake.broken).res ≠ WRes.errWrapped 7) := by decide

/-- C10 (amended): for a `Wait` call whose context has already fired at
entry, with fewer than `n - 1` arrivals registered and the current round
not already broken (no outcome broadcast fired), the call is not a no-op:
every `select` resolution registers the arrival (the count increments — no
early return precedes registration), the only enabled resolution is the
cancellation arm, and that resolution breaks the round and returns the
failure wrapping the cancellation cause. -/
theorem wait_precancelled_registers (b : BarrierS) (ctx : Ctx)
    (hc : b.cur.count + 1 < b.participants)
    (hf : ctx.fired = true)
    (hbr : b.cur.isBroken = false)
    (hs : b.cur.successClosed = false)
    (hbc : b.cur.brokenClosed = false) :
    (wakeEnabled b.cur.meetNewComer.2 ctx Wake.cancel = true) ∧
    (∀ w, wakeEnabled b.cur.meetNewComer.2 ctx w = true → w = Wake.cancel) ∧
    (∀ w, (b.Wait ctx w).b.cur.count = b.cur.count + 1) ∧
    (b.Wait ctx Wake.cancel).res = WRes.errWrapped ctx.cause ∧
    (b.Wait ctx Wake.cancel).b.cur.isBroken = true ∧
    (b.Wait ctx Wake.cancel).b.cur.brokenClosed = true := by
  obtain ⟨p, hact, ⟨ib, cnt, sc, bc⟩, log⟩ := b
  simp only at hc hbr hs hbc ⊢
  subst hbr; subst hs; subst hbc
  have h1 : ¬ p < cnt + 1 := by omega
  refine ⟨by simp [wakeEnabled, hf], fun w hw => ?_, fun w => ?_, ?_⟩
  · cases w
    · simp [wakeEnabled, Rnd.meetNewComer] at hw
    · simp [wakeEnabled, Rnd.meetNewComer] at hw
    · rfl
  · cases w <;>
      simp [BarrierS.Wait, Rnd.meetNewComer, BarrierS.breakRound, Rnd.breakRound,
        h1, hc]
  · simp [BarrierS.Wait, Rnd.meetNewComer, BarrierS.breakRound, Rnd.breakRound,
      h1, hc]

theorem wait_precancelled_registers_witness :
    (((⟨3, false, newRound, []⟩ : BarrierS).Wait ⟨true, 7⟩ Wake.cancel).res
      = WRes.errWrapped 7) ∧
    (((⟨3, false, newRound, []⟩ : BarrierS).Wait ⟨true, 7⟩ Wake.cancel).b.cur.count
      = 1) := by
  exact ⟨(wait_precancelled_registers ⟨3, false, newRound, []⟩ ⟨true, 7⟩
      (by decide) (by decide) (by decide) (by decide) (by decide)).2.2.2.1,
    (wait_precancelled_registers ⟨3, false, newRound, []⟩ ⟨true, 7⟩
      (by decide) (by decide) (by decide) (by decide) (by decide)).2.2.1 Wake.cancel⟩

theorem arrive_iter (k : Nat) (b : BarrierS) :
    (BarrierS.arrive)^[k] b
      = { b with cur := { b.cur with count := b.cur.count + k } } := by
  induction k generalizing b with
  | zero =>
    rcases b with ⟨p, a, ⟨ib, c, s, bc⟩, log⟩
    simp
  | succ k ih =>
    rw [Function.iterate_succ_apply, ih]
    rcases b with ⟨p, a, ⟨ib, c, s, bc⟩, log⟩
    simp [BarrierS.arrive, Rnd.meetNewComer]
    omega

theorem roundTrip_eq (b : BarrierS) (hb : b.cur = newRound)
    (hn : 1 ≤ b.participants) :
    b.roundTrip = { b with
      cur := newRound,
      retiredLog := b.retiredLog ++ [⟨false, b.participants, true, false⟩] } := by
  unfold BarrierS.roundTrip
  rw [arrive_iter]
  obtain ⟨p, hact, cur, log⟩ := b
  simp only at hb hn ⊢
  subst hb
  have hp : p - 1 + 1 = p := by omega
  have h1 : ¬ p < p - 1 + 1 := by omega
  have h2 : ¬ p - 1 + 1 < p := by omega
  simp [BarrierS.Wait, Rnd.meetNewComer, newRound, BarrierS.resetRound,
    BarrierS.IsBroken, Rnd.closeOnReset, hp, h1, h2]

/-- C9: retirement always installs a fresh round (count 0, not broken), so
`IsBroken` reports false right after any retirement; breaking makes
`IsBroken` report true and further arrivals keep it true until retirement;
after a retirement the barrier accepts `participants` new arrivals
(the count climbs back from 0), and full successful rounds repeat from the
fresh state arbitrarily many times. -/
theorem retirement_round_reuse (b : BarrierS)
    (hb : b.cur = newRound) (hn : 1 ≤ b.participants) :
    (∀ b2 : BarrierS, (b2.resetRound).cur = newRound ∧
      (b2.resetRound).IsBroken = false) ∧
    (newRound.count = 0 ∧ newRound.isBroken = false) ∧
    (∀ r : Rnd, (r.breakRound).isBroken = true ∧
      ((r.breakRound).meetNewComer.2).isBroken = true) ∧
    (∀ k, k ≤ b.participants → ((BarrierS.arrive)^[k] b).cur.count = k) ∧
    (∀ k, ((BarrierS.roundTrip)^[k] b).cur = newRound ∧
      ((BarrierS.roundTrip)^[k] b).IsBroken = false ∧
      ((BarrierS.roundTrip)^[k] b).participants = b.participants) := by
  refine ⟨fun b2 => ⟨rfl, rfl⟩, ⟨rfl, rfl⟩,
    fun r => ⟨Rnd.breakRound_isBroken r, ?_⟩, fun k hk => ?_, fun k => ?_⟩
  · simp [Rnd.meetNewComer]
  · rw [arrive_iter]; simp [hb, newRound]
  · induction k with
    | zero => exact ⟨hb, by simp [BarrierS.IsBroken, hb, newRound], rfl⟩
    | succ k ih =>
      obtain ⟨h1, h2, h3⟩ := ih
      rw [Function.iterate_succ_apply',
        roundTrip_eq _ h1 (by rw [h3]; exact hn)]
      exact ⟨rfl, by simp [BarrierS.IsBroken, newRound], h3⟩

theorem retirement_round_reuse_witness :
    (((BarrierS.roundTrip)^[3] ⟨2, false, newRound, []⟩).cur = newRound) ∧
    (((BarrierS.arrive)^[2] (⟨2, false, newRound, []⟩ : BarrierS)).cur.count = 2) := by
  exact ⟨((retirement_round_reuse ⟨2, false, newRound, []⟩ rfl (by decide)).2.2.2.2 3).1,
    (retirement_round_reuse ⟨2, false, newRound, []⟩ rfl (by decide)).2.2.2.1 2
      (by decide)⟩

/-- C8: in the fallible-action variant (src/barrier.go), when the last
arriver runs the action and the action returns an error, the round is
marked broken instead of released: the broken broadcast fires, the release
channel stays unfired, the round is not replaced, the action's error is
returned to the last arriver, and a waiter waking on the now-closed broken
channel receives the broken-barrier failure. -/
theorem action_error_breaks (b : Bar1) (ctx : Ctx) (w : Wake) (e : Nat)
    (hf : ctx.fired = false)
    (hbr : b.round.isBroken = false)
    (hc : b.round.count + 1 = b.parties)
    (ha : b.action = some (some e))
    (hwc : b.round.waitChClosed = false) :
    (b.Await ctx w).res = ARes.actionErr e ∧
    (b.Await ctx w).ranAction = true ∧
    (b.Await ctx w).b.round.isBroken = true ∧
    (b.Await ctx w).b.round.brokeChClosed = true ∧
    (b.Await ctx w).b.round.waitChClosed = false ∧
    (b.Await ctx w).b.log = b.log ∧
    (∀ cause, awaitSelect cause Wake.broken = ARes.errBrokenBarrier) := by
  obtain ⟨p, act, ⟨cnt, ib, wc, bk⟩, log⟩ := b
  obtain ⟨fired, cause⟩ := ctx
  simp only at hf hbr hc ha hwc ⊢
  subst hf; subst hbr; subst ha; subst hwc
  have h1 : ¬ p < cnt + 1 := by omega
  have h2 : ¬ cnt + 1 < p := by omega
  simp [Bar1.Await, Bar1.breakBarrier, awaitSelect, h1, h2]

theorem action_error_breaks_witness :
    (((⟨2, some (some 9), ⟨1, false, false, false⟩, []⟩ : Bar1).Await ⟨false, 0⟩
        Wake.success).res = ARes.actionErr 9) ∧
    (((⟨2, some (some 9), ⟨1, false, false, false⟩, []⟩ : Bar1).Await ⟨false, 0⟩
        Wake.success).b.round.brokeChClosed = true) := by
  exact ⟨(action_error_breaks ⟨2, some (some 9), ⟨1, false, false, false⟩, []⟩
      ⟨false, 0⟩ Wake.success 9 rfl rfl rfl rfl rfl).1,
    (action_error_breaks ⟨2, some (some 9), ⟨1, false, false, false⟩, []⟩
      ⟨false, 0⟩ Wake.success 9 rfl rfl rfl rfl rfl).2.2.2.1⟩

/-! Section: invariant of the thread-pool semantics -/

@[simp] theorem Cfg.setPhase_n (cfg : Cfg) (i : Nat) (ph : Phase) :
    (cfg.setPhase i ph).n = cfg.n := rfl

@[simp] theorem Cfg.setPhase_cur (cfg : Cfg) (i : Nat) (ph : Phase) :
    (cfg.setPhase i ph).cur = cfg.cur := rfl

@[simp] theorem Cfg.setPhase_retired (cfg : Cfg) (i : Nat) (ph : Phase) :
    (cfg.setPhase i ph).retired = cfg.retired := rfl

@[simp] theorem Cfg.setPhase_threads (cfg : Cfg) (i : Nat) (ph : Phase) (j : Nat) :
    (cfg.setPhase i ph).threads j = if j = i then ph else cfg.threads j := by
  simp [Cfg.setPhase, Function.update_apply]

@[simp] theorem Cfg.withCur_n (cfg : Cfg) (r : Rnd) : (cfg.withCur r).n = cfg.n := rfl

@[simp] theorem Cfg.withCur_cur (cfg : Cfg) (r : Rnd) : (cfg.withCur r).cur = r := rfl

@[simp] theorem Cfg.withCur_retired (cfg : Cfg) (r : Rnd) :
    (cfg.withCur r).retired = cfg.retired := rfl

@[simp] theorem Cfg.withCur_threads (cfg : Cfg) (r : Rnd) :
    (cfg.withCur r).threads = cfg.threads := rfl

@[simp] theorem Cfg.retire_n (cfg : Cfg) : (cfg.retire).n = cfg.n := rfl

@[simp] theorem Cfg.retire_cur (cfg : Cfg) : (cfg.retire).cur = newRound := rfl

@[simp] theorem Cfg.retire_retired (cfg : Cfg) :
    (cfg.retire).retired = cfg.retired ++ [cfg.cur.closeOnReset] := rfl

@[simp] theorem Cfg.retire_threads (cfg : Cfg) : (cfg.retire).threads = cfg.threads := rfl

theorem Phase.holdsPair_of_lastPair (ph : Phase) (p : Nat × Nat)
    (h : ph.lastPair = some p) : ph.holdsPair = some p := by
  cases ph <;> simpa [Phase.lastPair, Phase.holdsPair] using h

/-- Setting a thread's phase preserves the invariant, provided any pair the
new phase holds was already held by that thread and any last-arriver pair it
carries has the participant count. -/
theorem barInv_setPhase (cfg : Cfg) (i : Nat) (ph : Phase) (hinv : BarInv cfg)
    (hsub : ∀ p, ph.holdsPair = some p → (cfg.threads i).holdsPair = some p)
    (hlp : ∀ rid c, ph.lastPair = some (rid, c) → c = cfg.n) :
    BarInv (cfg.setPhase i ph) := by
  obtain ⟨hS, hB, hR, hRid, hCnt, hTop, hLast, hDup⟩ := hinv
  refine ⟨by simpa using hS, by simpa using hB, by simpa using hR, ?_, ?_, ?_, ?_, ?_⟩
  · intro j rid c hj
    simp only [Cfg.setPhase_threads, Cfg.setPhase_retired] at hj ⊢
    by_cases hji : j = i
    · rw [if_pos hji] at hj
      exact hRid i rid c (hsub _ hj)
    · rw [if_neg hji] at hj
      exact hRid j rid c hj
  · intro j c hj
    simp only [Cfg.setPhase_threads, Cfg.setPhase_retired, Cfg.setPhase_cur] at hj ⊢
    by_cases hji : j = i
    · rw [if_pos hji] at hj
      exact hCnt i c (hsub _ hj)
    · rw [if_neg hji] at hj
      exact hCnt j c hj
  · intro j rid hj
    simp only [Cfg.setPhase_threads, Cfg.setPhase_retired, Cfg.setPhase_n] at hj ⊢
    by_cases hji : j = i
    · rw [if_pos hji] at hj
      exact hTop i rid (hsub _ hj)
    · rw [if_neg hji] at hj
      exact hTop j rid hj
  · intro j rid c hj
    simp only [Cfg.setPhase_threads, Cfg.setPhase_n] at hj ⊢
    by_cases hji : j = i
    · rw [if_pos hji] at hj
      exact hlp rid c hj
    · rw [if_neg hji] at hj
      exact hLast j rid c hj
  · intro j k p hjk hj hk
    simp only [Cfg.setPhase_threads] at hj hk
    by_cases hji : j = i <;> by_cases hki : k = i
    · exact hjk (hji.trans hki.symm)
    · rw [if_pos hji] at hj
      rw [if_neg hki] at hk
      exact hDup i k p (fun h2 => hki h2.symm) (hsub _ hj) hk
    · rw [if_neg hji] at hj
      rw [if_pos hki] at hk
      exact hDup j i p hji hj (hsub _ hk)
    · rw [if_neg hji] at hj
      rw [if_neg hki] at hk
      exact hDup j k p hjk hj hk

/-- Applying `breakRound` to the current round preserves the invariant. -/
theorem barInv_breakCur (cfg : Cfg) (hinv : BarInv cfg) :
    BarInv (cfg.withCur cfg.cur.breakRound) := by
  obtain ⟨hS, hB, hR, hRid, hCnt, hTop, hLast, hDup⟩ := hinv
  refine ⟨?_, ?_, by simpa using hR, ?_, ?_, ?_, ?_, ?_⟩
  · simpa using hS
  · simp only [Cfg.withCur_cur]
    unfold Rnd.breakRound
    split
    · next hb => rw [hB]
    · simp
  · intro j rid c hj
    exact hRid j rid c hj
  · intro j c hj
    simpa using hCnt j c hj
  · intro j rid hj
    exact hTop j rid hj
  · intro j rid c hj
    exact hLast j rid c hj
  · intro j k p hjk hj hk
    exact hDup j k p hjk hj hk

/-- Registering an arrival (the `meetNewComer` critical section) preserves
the invariant: the acting thread may take the fresh pair
`(current round id, incremented count)` or drop to a pair-free phase. -/
theorem barInv_register (cfg : Cfg) (i : Nat) (ph : Phase) (hinv : BarInv cfg)
    (hph : ph.holdsPair = none ∨
      ph.holdsPair = some (cfg.retired.length, cfg.cur.count + 1))
    (hlp : ∀ rid c, ph.lastPair = some (rid, c) → c = cfg.n) :
    BarInv ((cfg.withCur cfg.cur.meetNewComer.2).setPhase i ph) := by
  obtain ⟨hS, hB, hR, hRid, hCnt, hTop, hLast, hDup⟩ := hinv
  refine ⟨by simpa [Rnd.meetNewComer] using hS, by simpa [Rnd.meetNewComer] using hB,
    by simpa using hR, ?_, ?_, ?_, ?_, ?_⟩
  · intro j rid c hj
    simp only [Cfg.setPhase_threads, Cfg.setPhase_retired, Cfg.withCur_threads,
      Cfg.withCur_retired] at hj ⊢
    by_cases hji : j = i
    · rw [if_pos hji] at hj
      rcases hph with hph | hph
      · rw [hph] at hj; exact absurd hj (by simp)
      · rw [hph] at hj
        obtain ⟨h1, h2⟩ := Prod.mk.injEq .. ▸ Option.some.injEq .. ▸ hj
        omega
    · rw [if_neg hji] at hj
      exact hRid j rid c hj
  · intro j c hj
    simp only [Cfg.setPhase_threads, Cfg.setPhase_retired, Cfg.setPhase_cur,
      Cfg.withCur_threads, Cfg.withCur_retired, Cfg.withCur_cur,
      Rnd.meetNewComer] at hj ⊢
    by_cases hji : j = i
    · rw [if_pos hji] at hj
      rcases hph with hph | hph
      · rw [hph] at hj; exact absurd hj (by simp)
      · rw [hph] at hj
        obtain ⟨h1, h2⟩ := Prod.mk.injEq .. ▸ Option.some.injEq .. ▸ hj
        omega
    · rw [if_neg hji] at hj
      have := hCnt j c hj
      omega
  · intro j rid hj
    simp only [Cfg.setPhase_threads, Cfg.setPhase_retired, Cfg.setPhase_n,
      Cfg.withCur_threads, Cfg.withCur_retired, Cfg.withCur_n] at hj ⊢
    by_cases hji : j = i
    · rw [if_pos hji] at hj
      rcases hph with hph | hph
      · rw [hph] at hj; exact absurd hj (by simp)
      · rw [hph] at hj
        exact (Prod.mk.injEq .. ▸ Option.some.injEq .. ▸ hj).1.symm
    · rw [if_neg hji] at hj
      exact hTop j rid hj
  · intro j rid c hj
    simp only [Cfg.setPhase_threads, Cfg.setPhase_n, Cfg.withCur_threads,
      Cfg.withCur_n] at hj ⊢
    by_cases hji : j = i
    · rw [if_pos hji] at hj
      exact hlp rid c hj
    · rw [if_neg hji] at hj
      exact hLast j rid c hj
  · intro j k p hjk hj hk
    simp only [Cfg.setPhase_threads, Cfg.withCur_threads] at hj hk
    by_cases hji : j = i <;> by_cases hki : k = i
    · exact hjk (hji.trans hki.symm)
    · rw [if_pos hji] at hj
      rw [if_neg hki] at hk
      rcases hph with hph | hph
      · rw [hph] at hj; exact absurd hj (by simp)
      · rw [hph] at hj
        rw [hj.symm] at hk
        have := hCnt k _ hk
        omega
    · rw [if_neg hji] at hj
      rw [if_pos hki] at hk
      rcases hph with hph | hph
      · rw [hph] at hk; exact absurd hk (by simp)
      · rw [hph] at hk
        rw [hk.symm] at hj
        have := hCnt j _ hj
        omega
    · rw [if_neg hji] at hj
      rw [if_neg hki] at hk
      exact hDup j k p hjk hj hk

/-- Retirement (by a thread on a last-arriver path) preserves the
invariant: the retired round keeps the channel discipline and carries at
least `n` arrivals. -/
theorem barInv_retire (cfg : Cfg) (i : Nat) (ph : Phase) (hinv : BarInv cfg)
    (hph : ph.holdsPair = none)
    (hi : ∃ rid c, (cfg.threads i).lastPair = some (rid, c)) :
    BarInv (cfg.retire.setPhase i ph) := by
  obtain ⟨rid0, c0, hip⟩ := hi
  have hihold : (cfg.threads i).holdsPair = some (rid0, c0) :=
    Phase.holdsPair_of_lastPair _ _ hip
  have hc0 : c0 = cfg.n := hinv.hLast i rid0 c0 hip
  have hrid0 : rid0 = cfg.retired.length := hinv.hTop i rid0 (hc0 ▸ hihold)
  have hcnt0 : cfg.n ≤ cfg.cur.count := by
    have := hinv.hCnt i c0 (hrid0 ▸ hihold)
    omega
  obtain ⟨hS, hB, hR, hRid, hCnt, hTop, hLast, hDup⟩ := hinv
  refine ⟨by simp [newRound], by simp [newRound], ?_, ?_, ?_, ?_, ?_, ?_⟩
  · intro r hr
    simp only [Cfg.setPhase_retired, Cfg.retire_retired, List.mem_append,
      List.mem_singleton, Cfg.setPhase_n, Cfg.retire_n] at hr ⊢
    rcases hr with hr | hr
    · exact hR r hr
    · subst hr
      unfold Rnd.closeOnReset
      split
      · next hbk =>
        refine ⟨by rw [hS, hbk]; rfl, by rw [hB], hcnt0⟩
      · next hbk =>
        simp only [Bool.not_eq_true] at hbk
        refine ⟨by simp [hbk], by simp [hB, hbk], by simpa using hcnt0⟩
  · intro j rid c hj
    simp only [Cfg.setPhase_threads, Cfg.setPhase_retired, Cfg.retire_threads,
      Cfg.retire_retired, List.length_append, List.length_singleton] at hj ⊢
    by_cases hji : j = i
    · rw [if_pos hji, hph] at hj
      exact absurd hj (by simp)
    · rw [if_neg hji] at hj
      have := hRid j rid c hj
      omega
  · intro j c hj
    simp only [Cfg.setPhase_threads, Cfg.setPhase_retired, Cfg.retire_threads,
      Cfg.retire_retired, List.length_append, List.length_singleton] at hj ⊢
    by_cases hji : j = i
    · rw [if_pos hji, hph] at hj
      exact absurd hj (by simp)
    · rw [if_neg hji] at hj
      have := hRid j _ c hj
      omega
  · intro j rid hj
    simp only [Cfg.setPhase_threads, Cfg.setPhase_retired, Cfg.setPhase_n,
      Cfg.retire_threads, Cfg.retire_retired, Cfg.retire_n,
      List.length_append, List.length_singleton] at hj ⊢
    by_cases hji : j = i
    · rw [if_pos hji, hph] at hj
      exact absurd hj (by simp)
    · rw [if_neg hji] at hj
      exfalso
      have hjt : rid = cfg.retired.length := hTop j rid hj
      have : (cfg.threads i).holdsPair = some (rid, cfg.n) := by
        rw [hihold, hc0, hrid0, hjt]
      exact hDup j i _ hji hj this
  · intro j rid c hj
    simp only [Cfg.setPhase_threads, Cfg.setPhase_n, Cfg.retire_threads,
      Cfg.retire_n] at hj ⊢
    by_cases hji : j = i
    · rw [if_pos hji] at hj
      have : ph.holdsPair = some (rid, c) := Phase.holdsPair_of_lastPair _ _ hj
      rw [hph] at this
      exact absurd this (by simp)
    · rw [if_neg hji] at hj
      exact hLast j rid c hj
  · intro j k p hjk hj hk
    simp only [Cfg.setPhase_threads, Cfg.retire_threads] at hj hk
    by_cases hji : j = i <;> by_cases hki : k = i
    · exact hjk (hji.trans hki.symm)
    · rw [if_pos hji, hph] at hj
      exact absurd hj (by simp)
    · rw [if_pos hki, hph] at hk
      exact absurd hk (by simp)
    · rw [if_neg hji] at hj
      rw [if_neg hki] at hk
      exact hDup j k p hjk hj hk

theorem barInv_init (cfg : Cfg) (h : Init cfg) : BarInv cfg := by
  obtain ⟨hn, hret, hcur, hth⟩ := h
  have hnone : ∀ i, (cfg.threads i).holdsPair = none := by
    intro i
    rcases hth i with h2 | h2 <;> rw [h2] <;> rfl
  have hlnone : ∀ i, (cfg.threads i).lastPair = none := by
    intro i
    rcases hth i with h2 | h2 <;> rw [h2] <;> rfl
  refine ⟨by rw [hcur]; rfl, by rw [hcur]; rfl, by rw [hret]; simp, ?_, ?_, ?_, ?_, ?_⟩
  · intro j rid c hj
    rw [hnone j] at hj
    exact Option.noConfusion hj
  · intro j c hj
    rw [hnone j] at hj
    exact Option.noConfusion hj
  · intro j rid hj
    rw [hnone j] at hj
    exact Option.noConfusion hj
  · intro j rid c hj
    rw [hlnone j] at hj
    exact Option.noConfusion hj
  · intro j k p hjk hj hk
    rw [hnone j] at hj
    exact Option.noConfusion hj

theorem barInv_step (cfg cfg2 : Cfg) (ev : Ev) (hinv : BarInv cfg)
    (h : stepFn cfg ev = some cfg2) : BarInv cfg2 := by
  cases ev with
  | startWait i =>
    cases hph : cfg.threads i <;> simp only [stepFn, hph] at h <;>
      try exact Option.noConfusion h
    rw [Option.some.injEq] at h
    subst h
    refine barInv_register cfg i _ hinv ?_ ?_
    · by_cases h1 : cfg.cur.meetNewComer.1 > cfg.n
      · rw [if_pos h1]; exact Or.inl rfl
      · rw [if_neg h1]
        by_cases h2 : cfg.cur.meetNewComer.1 < cfg.n
        · rw [if_pos h2]; exact Or.inl rfl
        · rw [if_neg h2]
          exact Or.inr (by simp [Phase.holdsPair, Rnd.meetNewComer])
    · intro rid c hlp2
      by_cases h1 : cfg.cur.meetNewComer.1 > cfg.n
      · rw [if_pos h1] at hlp2
        exact absurd hlp2 (by simp [Phase.lastPair])
      · rw [if_neg h1] at hlp2
        by_cases h2 : cfg.cur.meetNewComer.1 < cfg.n
        · rw [if_pos h2] at hlp2
          exact absurd hlp2 (by simp [Phase.lastPair])
        · rw [if_neg h2] at hlp2
          simp only [Phase.lastPair, Option.some.injEq, Prod.mk.injEq] at hlp2
          omega
  | startBreak i =>
    cases hph : cfg.threads i <;> simp only [stepFn, hph] at h <;>
      try exact Option.noConfusion h
    rw [Option.some.injEq] at h
    subst h
    refine barInv_register cfg i _ hinv ?_ ?_
    · by_cases h1 : cfg.cur.meetNewComer.1 > cfg.n
      · rw [if_pos h1]; exact Or.inl rfl
      · rw [if_neg h1]
        exact Or.inr (by simp [Phase.holdsPair, Rnd.meetNewComer])
    · intro rid c hlp2
      by_cases h1 : cfg.cur.meetNewComer.1 > cfg.n
      · rw [if_pos h1] at hlp2
        exact absurd hlp2 (by simp [Phase.lastPair])
      · rw [if_neg h1] at hlp2
        exact absurd hlp2 (by simp [Phase.lastPair])
  | brkStep i =>
    cases hph : cfg.threads i <;> simp only [stepFn, hph] at h <;>
      try exact Option.noConfusion h
    next rid c =>
    rw [Option.some.injEq] at h
    subst h
    refine barInv_setPhase _ i _ (barInv_breakCur cfg hinv) ?_ ?_
    · intro p hp
      by_cases hcn : c = cfg.n
      · rw [if_pos hcn] at hp
        simp only [Phase.holdsPair] at hp
        show (cfg.threads i).holdsPair = some p
        rw [hph]
        exact hp
      · rw [if_neg hcn] at hp
        exact absurd hp (by simp [Phase.holdsPair])
    · intro rid2 c2 hp
      by_cases hcn : c = cfg.n
      · rw [if_pos hcn] at hp
        simp only [Phase.lastPair, Option.some.injEq, Prod.mk.injEq] at hp
        show c2 = cfg.n
        omega
      · rw [if_neg hcn] at hp
        exact absurd hp (by simp [Phase.lastPair])
  | wakeSuccess i =>
    cases hph : cfg.threads i <;> simp only [stepFn, hph] at h <;>
      try exact Option.noConfusion h
    split at h
    · rw [Option.some.injEq] at h
      subst h
      exact barInv_setPhase cfg i _ hinv
        (fun p hp => absurd hp (by simp [Phase.holdsPair]))
        (fun rid2 c2 hp => absurd hp (by simp [Phase.lastPair]))
    · exact Option.noConfusion h
  | wakeBroken i =>
    cases hph : cfg.threads i <;> simp only [stepFn, hph] at h <;>
      try exact Option.noConfusion h
    split at h
    · rw [Option.some.injEq] at h
      subst h
      exact barInv_setPhase cfg i _ hinv
        (fun p hp => absurd hp (by simp [Phase.holdsPair]))
        (fun rid2 c2 hp => absurd hp (by simp [Phase.lastPair]))
    · exact Option.noConfusion h
  | wakeCancel i =>
    cases hph : cfg.threads i <;> simp only [stepFn, hph] at h <;>
      try exact Option.noConfusion h
    rw [Option.some.injEq] at h
    subst h
    exact barInv_setPhase _ i _ (barInv_breakCur cfg hinv)
      (fun p hp => absurd hp (by simp [Phase.holdsPair]))
      (fun rid2 c2 hp => absurd hp (by simp [Phase.lastPair]))
  | checkBroken i =>
    cases hph : cfg.threads i <;> simp only [stepFn, hph] at h <;>
      try exact Option.noConfusion h
    next rid c =>
    rw [Option.some.injEq] at h
    subst h
    refine barInv_setPhase cfg i _ hinv ?_ ?_
    · intro p hp
      simp only [Phase.holdsPair] at hp
      rw [hph]
      exact hp
    · intro rid2 c2 hp
      simp only [Phase.lastPair, Option.some.injEq, Prod.mk.injEq] at hp
      have := hinv.hLast i rid c (by rw [hph]; rfl)
      omega
  | resetStep i =>
    cases hph : cfg.threads i <;> simp only [stepFn, hph] at h <;>
      try exact Option.noConfusion h
    · next rid c e =>
      rw [Option.some.injEq] at h
      subst h
      exact barInv_retire cfg i _ hinv (by cases e <;> rfl)
        ⟨rid, c, by rw [hph]; rfl⟩
    · next rid c =>
      rw [Option.some.injEq] at h
      subst h
      exact barInv_retire cfg i _ hinv rfl ⟨rid, c, by rw [hph]; rfl⟩

theorem reachable_barInv (cfg : Cfg) (h : Reachable cfg) : BarInv cfg := by
  obtain ⟨c0, hinit, hsteps⟩ := h
  induction hsteps with
  | refl => exact barInv_init c0 hinit
  | tail hs hstep ih =>
    obtain ⟨e, he⟩ := hstep
    exact barInv_step _ _ e ih he

theorem roundAt_lt (cfg : Cfg) (rid : Nat) (h : rid < cfg.retired.length) :
    cfg.roundAt rid = cfg.retired[rid] := by
  unfold Cfg.roundAt
  rw [List.getD_eq_getElem?_getD, List.getElem?_eq_getElem h]
  rfl

theorem roundAt_ge (cfg : Cfg) (rid : Nat) (h : cfg.retired.length ≤ rid) :
    cfg.roundAt rid = cfg.cur := by
  unfold Cfg.roundAt
  rw [List.getD_eq_getElem?_getD, List.getElem?_eq_none h]
  rfl

@[simp] theorem roundAt_setPhase (cfg : Cfg) (i : Nat) (ph : Phase) (rid : Nat) :
    (cfg.setPhase i ph).roundAt rid = cfg.roundAt rid := rfl

theorem roundAt_withCur_succ (cfg : Cfg) (r : Rnd) (rid : Nat)
    (hr : r.successClosed = cfg.cur.successClosed) :
    ((cfg.withCur r).roundAt rid).successClosed
      = (cfg.roundAt rid).successClosed := by
  by_cases hlt : rid < cfg.retired.length
  · rw [roundAt_lt _ _ (by simpa using hlt), roundAt_lt _ _ hlt]
    rfl
  · rw [roundAt_ge _ _ (by simpa using Nat.le_of_not_lt hlt),
      roundAt_ge _ _ (Nat.le_of_not_lt hlt), Cfg.withCur_cur]
    exact hr

/-- In any invariant-satisfying configuration, a round whose success channel
is closed has registered at least `n` arrivals. -/
theorem succClosed_ge (cfg : Cfg) (hinv : BarInv cfg) (rid : Nat)
    (h : (cfg.roundAt rid).successClosed = true) :
    cfg.n ≤ (cfg.roundAt rid).count := by
  by_cases hlt : rid < cfg.retired.length
  · rw [roundAt_lt _ _ hlt] at h ⊢
    exact (hinv.ret _ (List.getElem_mem hlt)).2.2
  · rw [roundAt_ge _ _ (Nat.le_of_not_lt hlt)] at h
    rw [hinv.curSucc] at h
    exact Bool.noConfusion h

theorem retire_roundAt_lt (cfg : Cfg) (rid : Nat) (h : rid < cfg.retired.length) :
    (cfg.retire).roundAt rid = cfg.roundAt rid := by
  rw [roundAt_lt _ _ (by simp; omega), roundAt_lt _ _ h]
  simp only [Cfg.retire_retired]
  exact List.getElem_append_left h

theorem retire_roundAt_gt (cfg : Cfg) (rid : Nat) (h : cfg.retired.length < rid) :
    (cfg.retire).roundAt rid = newRound := by
  rw [roundAt_ge _ _ (by simp; omega)]
  rfl

/-- C2: for every round of every reachable configuration, the two outcome
broadcasts are mutually exclusive (never both fired); the success channel
is closed at retirement only if the broken flag is false, and the broken
channel is closed only on the false-to-true transition of the broken flag. -/
theorem round_outcomes_exclusive (cfg : Cfg) (hre : Reachable cfg) :
    (∀ rid, ¬((cfg.roundAt rid).successClosed = true ∧
      (cfg.roundAt rid).brokenClosed = true)) ∧
    (∀ r : Rnd, r.isBroken = true → r.closeOnReset = r) ∧
    (∀ r : Rnd, r.isBroken = false → (r.closeOnReset).successClosed = true) ∧
    (∀ r : Rnd, r.isBroken = true → r.breakRound = r) ∧
    (∀ r : Rnd, r.isBroken = false →
      (r.breakRound).isBroken = true ∧ (r.breakRound).brokenClosed = true) := by
  have hinv := reachable_barInv cfg hre
  refine ⟨?_, fun r h => by unfold Rnd.closeOnReset; rw [if_pos h],
    fun r h => by unfold Rnd.closeOnReset; rw [if_neg (by simp [h])],
    fun r h => by unfold Rnd.breakRound; rw [if_pos h],
    fun r h => by unfold Rnd.breakRound; rw [if_neg (by simp [h])]; exact ⟨rfl, rfl⟩⟩
  intro rid hcontra
  obtain ⟨hs, hb⟩ := hcontra
  by_cases hlt : rid < cfg.retired.length
  · rw [roundAt_lt _ _ hlt] at hs hb
    obtain ⟨h1, h2, h3⟩ := hinv.ret _ (List.getElem_mem hlt)
    rw [h1] at hs
    rw [h2] at hb
    rw [hb] at hs
    exact Bool.noConfusion hs
  · rw [roundAt_ge _ _ (Nat.le_of_not_lt hlt)] at hs
    rw [hinv.curSucc] at hs
    exact Bool.noConfusion hs

/-- C1: in every reachable configuration, the success broadcast of a round
fires only through the retirement step, performed by the thread whose
registered arrival count equals the participant count, and a waiter can
only return success from a round in which at least `n` arrivals have
registered. -/
theorem release_only_by_last_arrival (cfg cfg2 : Cfg) (ev : Ev)
    (hre : Reachable cfg) (hstep : stepFn cfg ev = some cfg2) :
    (∀ i rid, cfg.threads i = Phase.waiting rid → ev = Ev.wakeSuccess i →
      cfg.n ≤ (cfg.roundAt rid).count) ∧
    (∀ rid, (cfg.roundAt rid).successClosed = false →
      (cfg2.roundAt rid).successClosed = true →
      ∃ i, ev = Ev.resetStep i ∧ rid = cfg.retired.length ∧
        cfg.n ≤ (cfg.roundAt rid).count ∧
        ((∃ e2, cfg.threads i = Phase.lastW2 rid cfg.n e2) ∨
          cfg.threads i = Phase.lastB rid cfg.n)) := by
  have hinv := reachable_barInv cfg hre
  constructor
  · intro i rid hw hev
    subst hev
    simp only [stepFn, hw] at hstep
    split at hstep
    · next hsc => exact succClosed_ge cfg hinv rid hsc
    · exact Option.noConfusion hstep
  · intro rid h0 h1
    cases ev with
    | startWait i =>
      exfalso
      cases hph : cfg.threads i <;> simp only [stepFn, hph] at hstep <;>
        try exact Option.noConfusion hstep
      rw [Option.some.injEq] at hstep
      subst hstep
      rw [roundAt_setPhase,
        roundAt_withCur_succ cfg _ rid (by simp [Rnd.meetNewComer]), h0] at h1
      exact Bool.noConfusion h1
    | startBreak i =>
      exfalso
      cases hph : cfg.threads i <;> simp only [stepFn, hph] at hstep <;>
        try exact Option.noConfusion hstep
      rw [Option.some.injEq] at hstep
      subst hstep
      rw [roundAt_setPhase,
        roundAt_withCur_succ cfg _ rid (by simp [Rnd.meetNewComer]), h0] at h1
      exact Bool.noConfusion h1
    | brkStep i =>
      exfalso
      cases hph : cfg.threads i <;> simp only [stepFn, hph] at hstep <;>
        try exact Option.noConfusion hstep
      rw [Option.some.injEq] at hstep
      subst hstep
      rw [roundAt_setPhase,
        roundAt_withCur_succ cfg _ rid (Rnd.breakRound_successClosed _), h0] at h1
      exact Bool.noConfusion h1
    | wakeSuccess i =>
      exfalso
      cases hph : cfg.threads i <;> simp only [stepFn, hph] at hstep <;>
        try exact Option.noConfusion hstep
      split at hstep
      · rw [Option.some.injEq] at hstep
        subst hstep
        rw [roundAt_setPhase, h0] at h1
        exact Bool.noConfusion h1
      · exact Option.noConfusion hstep
    | wakeBroken i =>
      exfalso
      cases hph : cfg.threads i <;> simp only [stepFn, hph] at hstep <;>
        try exact Option.noConfusion hstep
      split at hstep
      · rw [Option.some.injEq] at hstep
        subst hstep
        rw [roundAt_setPhase, h0] at h1
        exact Bool.noConfusion h1
      · exact Option.noConfusion hstep
    | wakeCancel i =>
      exfalso
      cases hph : cfg.threads i <;> simp only [stepFn, hph] at hstep <;>
        try exact Option.noConfusion hstep
      rw [Option.some.injEq] at hstep
      subst hstep
      rw [roundAt_setPhase,
        roundAt_withCur_succ cfg _ rid (Rnd.breakRound_successClosed _), h0] at h1
      exact Bool.noConfusion h1
    | checkBroken i =>
      exfalso
      cases hph : cfg.threads i <;> simp only [stepFn, hph] at hstep <;>
        try exact Option.noConfusion hstep
      rw [Option.some.injEq] at hstep
      subst hstep
      rw [roundAt_setPhase, h0] at h1
      exact Bool.noConfusion h1
    | resetStep i =>
      cases hph : cfg.threads i <;> simp only [stepFn, hph] at hstep <;>
        try exact Option.noConfusion hstep
      · next rid0 c0 e0 =>
        rw [Option.some.injEq] at hstep
        subst hstep
        have hlp : (cfg.threads i).lastPair = some (rid0, c0) := by rw [hph]; rfl
        have hhp : (cfg.threads i).holdsPair = some (rid0, c0) := by rw [hph]; rfl
        have hc0 : c0 = cfg.n := hinv.hLast i rid0 c0 hlp
        have hrid0 : rid0 = cfg.retired.length := hinv.hTop i rid0 (hc0 ▸ hhp)
        have hcnt : cfg.n ≤ cfg.cur.count := by
          have := hinv.hCnt i c0 (hrid0 ▸ hhp)
          omega
        rcases Nat.lt_trichotomy rid cfg.retired.length with hlt | heq | hgt
        · exfalso
          rw [roundAt_setPhase, retire_roundAt_lt cfg rid hlt, h0] at h1
          exact Bool.noConfusion h1
        · refine ⟨i, rfl, heq, ?_, Or.inl ⟨e0, ?_⟩⟩
          · rw [heq, roundAt_ge cfg _ (Nat.le_refl _)]
            exact hcnt
          · rw [hph, hc0, hrid0, heq]
        · exfalso
          rw [roundAt_setPhase, retire_roundAt_gt cfg rid hgt] at h1
          exact absurd h1 (by decide)
      · next rid0 c0 =>
        rw [Option.some.injEq] at hstep
        subst hstep
        have hlp : (cfg.threads i).lastPair = some (rid0, c0) := by rw [hph]; rfl
        have hhp : (cfg.threads i).holdsPair = some (rid0, c0) := by rw [hph]; rfl
        have hc0 : c0 = cfg.n := hinv.hLast i rid0 c0 hlp
        have hrid0 : rid0 = cfg.retired.length := hinv.hTop i rid0 (hc0 ▸ hhp)
        have hcnt : cfg.n ≤ cfg.cur.count := by
          have := hinv.hCnt i c0 (hrid0 ▸ hhp)
          omega
        rcases Nat.lt_trichotomy rid cfg.retired.length with hlt | heq | hgt
        · exfalso
          rw [roundAt_setPhase, retire_roundAt_lt cfg rid hlt, h0] at h1
          exact Bool.noConfusion h1
        · refine ⟨i, rfl, heq, ?_, Or.inr ?_⟩
          · rw [heq, roundAt_ge cfg _ (Nat.le_refl _)]
            exact hcnt
          · rw [hph, hc0, hrid0, heq]
        · exfalso
          rw [roundAt_setPhase, retire_roundAt_gt cfg rid hgt] at h1
          exact absurd h1 (by decide)

theorem wstep1 : StepAny wcfg0 wcfg1 := ⟨Ev.startWait 0, rfl⟩

theorem wstep2 : StepAny wcfg1 wcfg2 := ⟨Ev.startWait 1, rfl⟩

theorem wstep3 : StepAny wcfg2 wcfg3 := ⟨Ev.checkBroken 1, rfl⟩

theorem wstep4 : StepAny wcfg3 wcfg4 := ⟨Ev.resetStep 1, rfl⟩

theorem wreach4 : Reachable wcfg4 :=
  ⟨wcfg0, ⟨by decide, rfl, rfl, fun i => Or.inl rfl⟩,
    Relation.ReflTransGen.tail (Relation.ReflTransGen.tail
      (Relation.ReflTransGen.tail (Relation.ReflTransGen.single wstep1) wstep2)
      wstep3) wstep4⟩

theorem release_only_by_last_arrival_witness :
    2 ≤ (wcfg4.roundAt 0).count :=
  (release_only_by_last_arrival wcfg4 wcfg5 (Ev.wakeSuccess 0) wreach4 rfl).1 0 0
    rfl rfl

theorem round_outcomes_exclusive_witness :
    (Rnd.breakRound ⟨true, 1, false, true⟩ = ⟨true, 1, false, true⟩) ∧
    ¬((wcfg4.roundAt 0).successClosed = true ∧
      (wcfg4.roundAt 0).brokenClosed = true) :=
  ⟨(round_outcomes_exclusive wcfg4 wreach4).2.2.2.1 ⟨true, 1, false, true⟩ rfl,
    (round_outcomes_exclusive wcfg4 wreach4).1 0⟩
